import Mathlib

/-!
# Verification of the conversation-memory and reply-formatting pipeline

A shallow embedding of the core of `src/ai-royal.js` (a Discord mention bot):
the conversation store (`trimHistory`), the output sanitizer
(`stripThinkBlocks`), the endpoint-URL resolver (`buildChatCompletionsUrl`),
the completion-response extraction (in `openAiChatCompletions`), the
system-prompt getter (`getSystemPrompt`) and the reply chunker (the pure part
of `sendLongReply`).

Strings are modelled as `List Char`.  JavaScript semantics that the source
relies on are embedded explicitly:
* `String.prototype.trim` / the regex class `\s` use the ECMAScript
  WhiteSpace/LineTerminator set (`isJsWs`);
* `String.prototype.replace` with a global regex scans left to right,
  matching at the earliest position and continuing after each match
  (`replaceAllGo`, driven by the per-position matchers below);
* string truthiness: the empty string is falsy.

Recursions that are not structural in the source (regex replacement, the
hard-split loop) take an explicit fuel argument initialised to the input
length; the fuel is provably sufficient since every step consumes at least
one character, so the embedded functions compute the same results.
-/

set_option linter.unusedVariables false

/-- ECMAScript WhiteSpace ∪ LineTerminator, the set removed by
`String.prototype.trim` and matched by the regex class `\s`. -/
def isJsWs (c : Char) : Bool :=
  c = '\t' || c = '\n' || c = '\x0b' || c = '\x0c' || c = '\r' || c = ' ' ||
  c = '\u00A0' || c = '\u1680' ||
  (decide (0x2000 <= c.toNat) && decide (c.toNat <= 0x200A)) ||
  c = '\u2028' || c = '\u2029' || c = '\u202F' || c = '\u205F' ||
  c = '\u3000' || c = '\uFEFF'

/-- Leading-whitespace removal (half of `String.prototype.trim`). -/
def trimLeft (l : List Char) : List Char := l.dropWhile fun c => isJsWs c

/-- Trailing-whitespace removal (half of `String.prototype.trim`). -/
def trimRight (l : List Char) : List Char :=
  (l.reverse.dropWhile fun c => isJsWs c).reverse

/-- `String.prototype.trim`. -/
def jsTrim (l : List Char) : List Char := trimRight (trimLeft l)

/-- One stored turn: `{ role, content }` as pushed by the message handler
(`conversation.messages.push({ role: 'user', content: userMessage })`). -/
structure Msg where
  role : List Char
  content : List Char
deriving DecidableEq

/-- `approxChars` (src/ai-royal.js lines 63-67): total content length. -/
def approxChars : List Msg → Nat
  | [] => 0
  | m :: t => m.content.length + approxChars t

/-- First loop of `trimHistory` (line 70):
`while (messages.length > MAX_HISTORY_MESSAGES) messages.shift()`. -/
def trimCount (maxM : Nat) : List Msg → List Msg
  | [] => []
  | m :: t => if (m :: t).length > maxM then trimCount maxM t else m :: t

/-- Second loop of `trimHistory` (lines 71-73):
`while (approxChars(messages) > MAX_HISTORY_CHARS && messages.length > 1)
messages.shift()`. -/
def trimChars (maxC : Nat) : List Msg → List Msg
  | [] => []
  | m :: t =>
    if approxChars (m :: t) > maxC ∧ (m :: t).length > 1
    then trimChars maxC t else m :: t

/-- `trimHistory` (src/ai-royal.js lines 69-74), parameterised by the two
configured bounds. -/
def trimHistory (maxM maxC : Nat) (messages : List Msg) : List Msg :=
  trimChars maxC (trimCount maxM messages)

/-- The built-in default prompt `SYSTEM_PROMPT` (line 30). -/
def SYSTEM_PROMPT : List Char :=
  "You are a helpful Discord assistant. Be concise and accurate.".toList

/-- `getSystemPrompt` (lines 51-54), as a function of the current value of
`state.globalSystemPrompt` (a `null` value behaves like the empty string,
via `|| ''`). -/
def getSystemPrompt (globalSystemPrompt : List Char) : List Char :=
  let p := jsTrim globalSystemPrompt
  if p.length ≠ 0 then p else SYSTEM_PROMPT

/-! ## The sanitizer `stripThinkBlocks` (src/ai-royal.js lines 80-91)

The source applies four global case-insensitive regex replacements (all with
replacement `''`), collapses newline runs and trims:
```
out = text.replace(<think RE-1>, '');          -- <think\b[^>]*>[\s\S]*?<\/think>
out = out.replace(<think RE-2>, '');           -- <\/?think\b[^>]*>
out = out.replace(<reasoning RE-3>, '');       -- <\s*reasoning\b[^>]*>[\s\S]*?<\/\s*reasoning\s*>
out = out.replace(<reasoning RE-4>, '');       -- <\/?\s*reasoning\b[^>]*>
out = out.replace(<newline RE>, '\n\n').trim() -- \n{3,}
```
Each regex is embedded as a deterministic per-position matcher (each of these
patterns backtracks trivially: `[^>]*>` consumes up to the first `>`, `\s*`
up to the first non-whitespace, `\/?` succeeds with `/` exactly when a `/` is
next, and the lazy `[\s\S]*?` stops at the earliest closing tag). -/

/-- Case-insensitive character match against a lowercase-or-caseless pattern
character, as the `i` flag canonicalises ASCII letters. -/
def ciMatch (p c : Char) : Bool :=
  c = p ||
  (decide (65 ≤ c.toNat) && decide (c.toNat ≤ 90) && decide (c.toNat + 32 = p.toNat))

/-- Match a literal pattern (given caseless/lowercase) case-insensitively at
the front of the input, returning the remainder on success. -/
def stripPrefixCI : List Char → List Char → Option (List Char)
  | [], l => some l
  | _ :: _, [] => none
  | p :: ps, c :: cs => if ciMatch p c then stripPrefixCI ps cs else none

/-- JavaScript regex word character (`\w`), for `\b`. -/
def isWordChar (c : Char) : Bool :=
  (decide ('a' ≤ c) && decide (c ≤ 'z')) ||
  (decide ('A' ≤ c) && decide (c ≤ 'Z')) ||
  (decide ('0' ≤ c) && decide (c ≤ '9')) || c = '_'

/-- `\b` placed right after a word character: holds iff the input continues
with a non-word character or ends. -/
def boundaryAfterWord : List Char → Bool
  | [] => true
  | c :: _ => !isWordChar c

/-- `[^>]*>`: consume up to the first `>`, require the `>`, return the rest. -/
def attrsThenGt (l : List Char) : Option (List Char) :=
  match l.dropWhile (fun c => c ≠ '>') with
  | '>' :: rest => some rest
  | _ => none

def thinkWord : List Char := ['t', 'h', 'i', 'n', 'k']

def reasoningWord : List Char := ['r', 'e', 'a', 's', 'o', 'n', 'i', 'n', 'g']

def thinkCloseLit : List Char := ['<', '/', 't', 'h', 'i', 'n', 'k', '>']

/-- Lazy `[\s\S]*?<\/think>`: find the earliest closing `</think>` (case
folded) and return the input after it. -/
def seekThinkClose : List Char → Option (List Char)
  | [] => none
  | c :: t =>
    match stripPrefixCI thinkCloseLit (c :: t) with
    | some r => some r
    | none => seekThinkClose t

/-- Matcher for RE-1 `<think\b[^>]*>[\s\S]*?<\/think>` at the current
position. -/
def tryThinkBlock : List Char → Option (List Char)
  | [] => none
  | c :: r0 =>
    if c = '<' then
      match stripPrefixCI thinkWord r0 with
      | none => none
      | some r1 =>
        if boundaryAfterWord r1 then
          match attrsThenGt r1 with
          | none => none
          | some r2 => seekThinkClose r2
        else none
    else none

/-- Matcher for RE-2 `<\/?think\b[^>]*>` at the current position. -/
def tryThinkStray : List Char → Option (List Char)
  | [] => none
  | c :: r0 =>
    if c = '<' then
      let r1 := match r0 with
        | '/' :: r => r
        | _ => r0
      match stripPrefixCI thinkWord r1 with
      | none => none
      | some r2 => if boundaryAfterWord r2 then attrsThenGt r2 else none
    else none

/-- Matcher for the RE-3 opening `<\s*reasoning\b[^>]*>`. -/
def tryReasoningOpen : List Char → Option (List Char)
  | [] => none
  | c :: r0 =>
    if c = '<' then
      match stripPrefixCI reasoningWord (r0.dropWhile fun c => isJsWs c) with
      | none => none
      | some r1 => if boundaryAfterWord r1 then attrsThenGt r1 else none
    else none

/-- The RE-3 closing tag `<\/\s*reasoning\s*>` at the current position. -/
def matchReasoningClose : List Char → Option (List Char)
  | '<' :: '/' :: r0 =>
    match stripPrefixCI reasoningWord (r0.dropWhile fun c => isJsWs c) with
    | none => none
    | some r1 =>
      match r1.dropWhile (fun c => isJsWs c) with
      | '>' :: r2 => some r2
      | _ => none
  | _ => none

/-- Lazy search for the earliest RE-3 closing tag. -/
def seekReasoningClose : List Char → Option (List Char)
  | [] => none
  | c :: t =>
    match matchReasoningClose (c :: t) with
    | some r => some r
    | none => seekReasoningClose t

/-- Matcher for RE-3 `<\s*reasoning\b[^>]*>[\s\S]*?<\/\s*reasoning\s*>`. -/
def tryReasoningBlock (l : List Char) : Option (List Char) :=
  match tryReasoningOpen l with
  | none => none
  | some r => seekReasoningClose r

/-- Matcher for RE-4 `<\/?\s*reasoning\b[^>]*>` at the current position. -/
def tryReasoningStray : List Char → Option (List Char)
  | [] => none
  | c :: r0 =>
    if c = '<' then
      let r1 := match r0 with
        | '/' :: r => r
        | _ => r0
      match stripPrefixCI reasoningWord (r1.dropWhile fun c => isJsWs c) with
      | none => none
      | some r2 => if boundaryAfterWord r2 then attrsThenGt r2 else none
    else none

/-- `String.prototype.replace(regex-with-g, '')`: scan left to right, at each
position try the matcher; on a match drop it and continue after it.  `fuel`
is initialised to the input length; since every successful match consumes at
least one character this never runs out. -/
def replaceAllGo (m : List Char → Option (List Char)) : Nat → List Char → List Char
  | _, [] => []
  | 0, l => l
  | fuel + 1, c :: t =>
    match m (c :: t) with
    | some rest => replaceAllGo m fuel rest
    | none => c :: replaceAllGo m fuel t

/-- Global regex deletion over a whole string. -/
def replaceAll (m : List Char → Option (List Char)) (l : List Char) : List Char :=
  replaceAllGo m l.length l

/-- `\n{3,}` → `\n\n` (line 88), as a scanner that keeps at most two newlines
of every run.  `seen` counts the newlines already emitted in the current
run. -/
def collapseAux : Nat → List Char → List Char
  | _, [] => []
  | seen, c :: t =>
    if c = '\n' then
      if 2 ≤ seen then collapseAux seen t
      else '\n' :: collapseAux (seen + 1) t
    else c :: collapseAux 0 t

/-- `out.replace(/\n{3,}/g, '\n\n')`. -/
def collapseNewlines (l : List Char) : List Char := collapseAux 0 l

/-- Fixed-point characterisation of `collapseNewlines`: no newline run longer
than two, with `seen` newlines already pending from the left context. -/
def cleanFrom : Nat → List Char → Bool
  | _, [] => true
  | seen, c :: t =>
    if c = '\n' then decide (seen < 2) && cleanFrom (seen + 1) t
    else cleanFrom 0 t

/-- `stripThinkBlocks` (src/ai-royal.js lines 80-91). -/
def stripThinkBlocks (text : List Char) : List Char :=
  if text = [] then text
  else
    let o1 := replaceAll tryThinkBlock text
    let o2 := replaceAll tryThinkStray o1
    let o3 := replaceAll tryReasoningBlock o2
    let o4 := replaceAll tryReasoningStray o3
    jsTrim (collapseNewlines o4)

/-! ## Endpoint URL resolution, response extraction, system prompt -/

/-- `.replace(/\/+$/, '')`: strip a trailing run of slashes (applied to the
base URL both at startup, line 24, and inside the builder, line 95). -/
def stripTrailingSlashes (l : List Char) : List Char :=
  (l.reverse.dropWhile fun c => c = '/').reverse

def chatSuffix : List Char := "/chat/completions".toList

def v1ChatSuffix : List Char := "/v1/chat/completions".toList

def v1Tail : List Char := "/v1".toList

/-- `buildChatCompletionsUrl` (src/ai-royal.js lines 93-98), as a function of
the configured `OPENAI_API_URL` (empty models unset: both are falsy) and
`OPENAI_BASE_URL`. -/
def buildChatCompletionsUrl (apiUrl baseUrl : List Char) : List Char :=
  if apiUrl ≠ [] then jsTrim apiUrl
  else
    let clean := stripTrailingSlashes baseUrl
    if v1Tail.isSuffixOf clean then clean ++ chatSuffix
    else clean ++ v1ChatSuffix

/-- The response-extraction tail of `openAiChatCompletions` (lines 161-170):
`rawContent = msg.content ?? choices[0].text ?? ''`, sanitize it and the
`reasoning_content` field, prefer the sanitized content, and trim.  `none`
models a nullish field. -/
def openAiExtractContent (content legacyText reasoning : Option (List Char)) :
    List Char :=
  let rawContent := content.getD (legacyText.getD [])
  let cleanedContent := stripThinkBlocks rawContent
  let cleanedReasoning := stripThinkBlocks (reasoning.getD [])
  let chosen := if cleanedContent = [] then cleanedReasoning else cleanedContent
  jsTrim (if chosen = [] then [] else chosen)

/-! ## The reply chunker (the pure part of `sendLongReply`, lines 214-247) -/

/-- `MAX` (line 215). -/
def MAX_REPLY : Nat := 1900

/-- The placeholder `'(no content)'` (line 216). -/
def noContent : List Char := "(no content)".toList

/-- `String.prototype.split('\n')`. -/
def splitNl : List Char → List (List Char)
  | [] => [[]]
  | c :: t =>
    if c = '\n' then [] :: splitNl t
    else
      match splitNl t with
      | [] => [[c]]
      | h :: r => (c :: h) :: r

/-- Joining chunks back with `'\n'` (how the claims talk about the output;
also how `split`'s inverse works). -/
def joinNl : List (List Char) → List Char
  | [] => []
  | [x] => x
  | x :: r => x ++ '\n' :: joinNl r

/-- `pushBuf` (lines 221-224): flush the buffer unless it is
whitespace-only. -/
def flushBuf (buf : List Char) : List (List Char) :=
  if jsTrim buf = [] then [] else [buf]

/-- The hard-split loop (lines 231-233):
`for (i = 0; i < line.length; i += MAX) parts.push(line.slice(i, i + MAX))`.
Fuel is initialised to the line length, which suffices since `MAX ≥ 1`. -/
def hardSplitGo : Nat → List Char → List (List Char)
  | _, [] => []
  | 0, l => [l]
  | fuel + 1, l => l.take MAX_REPLY :: hardSplitGo fuel (l.drop MAX_REPLY)

def hardSplit (l : List Char) : List (List Char) := hardSplitGo l.length l

/-- The accumulation loop of `sendLongReply` (lines 226-241), returning the
pushed parts in order. -/
def chunkLoop : List Char → List (List Char) → List (List Char)
  | buf, [] => flushBuf buf
  | buf, line :: rest =>
    let cand := if buf = [] then line else buf ++ '\n' :: line
    if cand.length > MAX_REPLY then
      flushBuf buf ++
        (if line.length > MAX_REPLY then hardSplit line ++ chunkLoop [] rest
         else chunkLoop line rest)
    else chunkLoop cand rest

/-- The pure chunking performed by `sendLongReply` (lines 214-241): the list
of message parts it would send for a given text (`null` behaves like the
empty string: both are falsy at line 216). -/
def sendLongReplyParts (text : List Char) : List (List Char) :=
  let t := if text = [] then noContent else text
  chunkLoop [] (splitNl t)

/-! ## Lemmas: the conversation store -/

theorem trimCount_length_le (maxM : Nat) (l : List Msg) :
    (trimCount maxM l).length ≤ maxM := by
  induction l with
  | nil => simp [trimCount]
  | cons m t ih =>
    simp only [trimCount]
    split_ifs with h
    · exact ih
    · simp only [List.length_cons] at h ⊢
      omega

theorem trimChars_length_le (maxC : Nat) (l : List Msg) :
    (trimChars maxC l).length ≤ l.length := by
  induction l with
  | nil => simp [trimChars]
  | cons m t ih =>
    simp only [trimChars]
    split_ifs with h
    · exact le_trans ih (by simp)
    · simp

theorem trimChars_spec (maxC : Nat) (l : List Msg) :
    approxChars (trimChars maxC l) ≤ maxC ∨ (trimChars maxC l).length ≤ 1 := by
  induction l with
  | nil => right; simp [trimChars]
  | cons m t ih =>
    simp only [trimChars]
    split_ifs with h
    · exact ih
    · rcases not_and_or.mp h with h1 | h2
      · left; omega
      · right; simp only [List.length_cons] at h2 ⊢; omega

theorem trimChars_ne_nil (maxC : Nat) (l : List Msg) (h : l ≠ []) :
    trimChars maxC l ≠ [] := by
  induction l with
  | nil => exact absurd rfl h
  | cons m t ih =>
    simp only [trimChars]
    split_ifs with hc
    · have ht : t ≠ [] := by
        rcases t with _ | _
        · simp at hc
        · simp
      exact ih ht
    · simp

theorem trimCount_suffix (maxM : Nat) (l : List Msg) :
    (trimCount maxM l).IsSuffix l := by
  induction l with
  | nil => simp [trimCount]
  | cons m t ih =>
    simp only [trimCount]
    split_ifs with h
    · exact ih.trans (List.suffix_cons m t)
    · exact List.suffix_refl _

theorem trimChars_suffix (maxC : Nat) (l : List Msg) :
    (trimChars maxC l).IsSuffix l := by
  induction l with
  | nil => simp [trimChars]
  | cons m t ih =>
    simp only [trimChars]
    split_ifs with h
    · exact ih.trans (List.suffix_cons m t)
    · exact List.suffix_refl _

/-- C1: after `trimHistory` the turn count is at most `MAX_HISTORY_MESSAGES`;
if more than one turn remains the character total is at most
`MAX_HISTORY_CHARS`; and the character-budget loop never drops the last
remaining turn, whatever its size. -/
theorem claim_C1 (maxM maxC : Nat) (msgs : List Msg) :
    (trimHistory maxM maxC msgs).length ≤ maxM
    ∧ ((trimHistory maxM maxC msgs).length > 1 →
        approxChars (trimHistory maxM maxC msgs) ≤ maxC)
    ∧ (∀ l : List Msg, l ≠ [] → trimChars maxC l ≠ []) := by
  refine ⟨?_, ?_, fun l hl => trimChars_ne_nil maxC l hl⟩
  · exact le_trans (trimChars_length_le maxC _) (trimCount_length_le maxM msgs)
  · intro hlen
    rcases trimChars_spec maxC (trimCount maxM msgs) with h | h
    · exact h
    · exact absurd hlen (by simp only [trimHistory] at *; omega)

/-- Witness for C1 at a concrete conversation. -/
theorem claim_C1_witness :
    approxChars (trimHistory 2 10
      [⟨"user".toList, "ab".toList⟩, ⟨"assistant".toList, "cd".toList⟩,
       ⟨"user".toList, "ef".toList⟩]) ≤ 10
    ∧ trimChars 10 [(⟨"user".toList, "hello".toList⟩ : Msg)] ≠ [] := by
  constructor
  · exact (claim_C1 2 10 _).2.1 (by decide)
  · exact (claim_C1 2 10 []).2.2 _ (by decide)

/-- C9: trimming only ever removes turns from the front: the trimmed
conversation is a contiguous suffix of the original, so retained turns keep
their order, role and text. -/
theorem claim_C9 (maxM maxC : Nat) (msgs : List Msg) :
    (trimHistory maxM maxC msgs).IsSuffix msgs :=
  (trimChars_suffix maxC (trimCount maxM msgs)).trans (trimCount_suffix maxM msgs)

/-! ## Lemmas: JavaScript `trim` -/

theorem dropWhile_dropWhile {α : Type} (p : α → Bool) (l : List α) :
    (l.dropWhile p).dropWhile p = l.dropWhile p := by
  induction l with
  | nil => rfl
  | cons c t ih =>
    by_cases h : p c
    · simp [List.dropWhile_cons, h, ih]
    · simp [List.dropWhile_cons, h]

theorem head_dropWhile_false {α : Type} (p : α → Bool) (l : List α) (c : α)
    (h : (l.dropWhile p).head? = some c) : p c = false := by
  induction l with
  | nil => simp [List.dropWhile] at h
  | cons a t ih =>
    by_cases ha : p a
    · exact ih (by simpa [List.dropWhile_cons, ha] using h)
    · simp only [List.dropWhile_cons, if_neg ha, List.head?_cons] at h
      cases h
      simpa using ha

theorem mem_dropWhile {α : Type} (p : α → Bool) (l : List α) (a : α)
    (h : a ∈ l.dropWhile p) : a ∈ l := by
  induction l with
  | nil => exact h
  | cons c t ih =>
    by_cases hc : p c
    · exact List.mem_cons_of_mem c (ih (by simpa [List.dropWhile_cons, hc] using h))
    · simpa [List.dropWhile_cons, hc] using h

theorem trimRight_decomp (l : List Char) : ∃ t, l = trimRight l ++ t := by
  refine ⟨(l.reverse.takeWhile fun c => isJsWs c).reverse, ?_⟩
  have h2 := congrArg List.reverse
    (List.takeWhile_append_dropWhile (fun c => isJsWs c) l.reverse)
  rw [List.reverse_append, List.reverse_reverse] at h2
  exact h2.symm

theorem trimLeft_eq_self (l : List Char)
    (h : ∀ c, l.head? = some c → isJsWs c = false) : trimLeft l = l := by
  cases l with
  | nil => rfl
  | cons c t => simp [trimLeft, List.dropWhile_cons, h c rfl]

theorem trimLeft_headClean (l : List Char) (c : Char)
    (h : (trimLeft l).head? = some c) : isJsWs c = false := by
  simpa using head_dropWhile_false (fun c => isJsWs c) l c h

theorem trimRight_trimRight (l : List Char) :
    trimRight (trimRight l) = trimRight l := by
  unfold trimRight
  rw [List.reverse_reverse, dropWhile_dropWhile]

theorem trimLeft_jsTrim (l : List Char) : trimLeft (jsTrim l) = jsTrim l := by
  obtain ⟨t, ht⟩ := trimRight_decomp (trimLeft l)
  apply trimLeft_eq_self
  intro c hc
  have hc' : (trimRight (trimLeft l)).head? = some c := hc
  apply trimLeft_headClean l
  rw [ht]
  cases hr : trimRight (trimLeft l) with
  | nil => rw [hr] at hc'; simp at hc'
  | cons a u =>
    rw [hr] at hc'
    simp only [List.head?_cons] at hc'
    simpa [List.cons_append] using hc' 

theorem jsTrim_idem (l : List Char) : jsTrim (jsTrim l) = jsTrim l := by
  show trimRight (trimLeft (jsTrim l)) = jsTrim l
  rw [trimLeft_jsTrim]
  exact trimRight_trimRight _

theorem jsTrim_eq_nil_iff (l : List Char) :
    jsTrim l = [] ↔ ∀ c ∈ l, isJsWs c = true := by
  constructor
  · intro h c hc
    have hall : ∀ c ∈ trimLeft l, isJsWs c = true := by
      intro x hx
      have h2 : (trimLeft l).reverse.dropWhile (fun c => isJsWs c) = [] := by
        have := congrArg List.reverse h
        simpa [jsTrim, trimRight] using this
      have := List.dropWhile_eq_nil_iff.mp h2 x (List.mem_reverse.mpr hx)
      simpa using this
    have hc2 : c ∈ l.takeWhile (fun c => isJsWs c) ++ l.dropWhile (fun c => isJsWs c) := by
      rw [List.takeWhile_append_dropWhile]
      exact hc
    rcases List.mem_append.mp hc2 with h1 | h2
    · simpa using List.mem_takeWhile_imp h1
    · exact hall c h2
  · intro h
    have h1 : trimLeft l = [] :=
      List.dropWhile_eq_nil_iff.mpr (by intro x hx; simpa using h x hx)
    simp [jsTrim, h1, trimRight, List.dropWhile]

theorem mem_jsTrim (c : Char) (l : List Char) (h : c ∈ jsTrim l) : c ∈ l := by
  have h1 : c ∈ trimLeft l := by
    have := List.mem_reverse.mpr ((by simpa [jsTrim, trimRight] using h :
      c ∈ ((trimLeft l).reverse.dropWhile fun c => isJsWs c).reverse))
    exact List.mem_reverse.mp (mem_dropWhile _ _ _ (by simpa using this))
  exact mem_dropWhile _ _ _ h1

/-- C10: the effective system prompt is never empty or whitespace-only:
`getSystemPrompt` returns the trimmed global prompt when that is non-empty
and the built-in default otherwise, and its result always survives a trim. -/
theorem claim_C10 (globalSystemPrompt : List Char) :
    (jsTrim globalSystemPrompt ≠ [] →
      getSystemPrompt globalSystemPrompt = jsTrim globalSystemPrompt)
    ∧ (jsTrim globalSystemPrompt = [] →
      getSystemPrompt globalSystemPrompt = SYSTEM_PROMPT)
    ∧ jsTrim (getSystemPrompt globalSystemPrompt) ≠ [] := by
  refine ⟨fun h => ?_, fun h => ?_, ?_⟩
  · simp only [getSystemPrompt]
    rw [if_pos (by simpa [List.length_eq_zero] using h)]
  · simp only [getSystemPrompt]
    rw [if_neg (by simp [h])]
  · by_cases h : jsTrim globalSystemPrompt = []
    · simp only [getSystemPrompt, if_neg (by simp [h] : ¬(jsTrim globalSystemPrompt).length ≠ 0)]
      decide
    · simp only [getSystemPrompt,
        if_pos (by simpa [List.length_eq_zero] using h : (jsTrim globalSystemPrompt).length ≠ 0)]
      rw [jsTrim_idem]
      exact h

/-- Witness for C10: a whitespace-only global prompt falls back to the
default, and a padded prompt is trimmed. -/
theorem claim_C10_witness :
    getSystemPrompt "  ".toList = SYSTEM_PROMPT
    ∧ getSystemPrompt " custom ".toList = "custom".toList
    ∧ jsTrim (getSystemPrompt "  ".toList) ≠ [] := by
  refine ⟨(claim_C10 "  ".toList).2.1 (by decide), ?_, (claim_C10 "  ".toList).2.2⟩
  have h := (claim_C10 " custom ".toList).1 (by decide)
  rw [h]
  decide

/-! ## Claim C6: endpoint URL resolution -/

/-- C6 counterexample: the explicit override is NOT used verbatim — the code
applies `String(OPENAI_API_URL).trim()`, so an override with surrounding
whitespace comes back changed. -/
theorem claim_C6_counterexample :
    buildChatCompletionsUrl " x".toList "https://api.openai.com/v1".toList
      ≠ " x".toList := by decide

/-- C6 amended: a configured (truthy) override is used after whitespace
trimming — hence verbatim whenever it carries no surrounding whitespace —
otherwise the base URL with trailing slashes stripped is suffixed with
`/chat/completions` when it already ends in `/v1` and with
`/v1/chat/completions` when it does not. -/
theorem claim_C6_amended (apiUrl baseUrl : List Char) :
    (apiUrl ≠ [] → buildChatCompletionsUrl apiUrl baseUrl = jsTrim apiUrl)
    ∧ (apiUrl = [] →
        v1Tail.isSuffixOf (stripTrailingSlashes baseUrl) = true →
        buildChatCompletionsUrl apiUrl baseUrl =
          stripTrailingSlashes baseUrl ++ chatSuffix)
    ∧ (apiUrl = [] →
        v1Tail.isSuffixOf (stripTrailingSlashes baseUrl) = false →
        buildChatCompletionsUrl apiUrl baseUrl =
          stripTrailingSlashes baseUrl ++ v1ChatSuffix) := by
  refine ⟨fun h => ?_, fun h hv => ?_, fun h hv => ?_⟩
  · simp [buildChatCompletionsUrl, h]
  · simp [buildChatCompletionsUrl, h, hv]
  · simp [buildChatCompletionsUrl, h, hv]

/-- Witness for C6 at the spec's two example bases plus a trimmed override. -/
theorem claim_C6_amended_witness :
    buildChatCompletionsUrl [] "https://api.openai.com/v1".toList
      = "https://api.openai.com/v1/chat/completions".toList
    ∧ buildChatCompletionsUrl [] "https://host/openai".toList
      = "https://host/openai/v1/chat/completions".toList
    ∧ buildChatCompletionsUrl " x".toList "base".toList = "x".toList := by
  refine ⟨?_, ?_, ?_⟩
  · rw [(claim_C6_amended [] "https://api.openai.com/v1".toList).2.1 rfl (by decide)]
    decide
  · rw [(claim_C6_amended [] "https://host/openai".toList).2.2 rfl (by decide)]
    decide
  · rw [(claim_C6_amended " x".toList "base".toList).1 (by decide)]
    decide

/-! ## Lemmas: the reply chunker -/

theorem hardSplitGo_nil (fuel : Nat) : hardSplitGo fuel [] = [] := by
  cases fuel <;> rfl

theorem hardSplitGo_succ (fuel : Nat) (l : List Char) (h : l ≠ []) :
    hardSplitGo (fuel + 1) l
      = l.take MAX_REPLY :: hardSplitGo fuel (l.drop MAX_REPLY) := by
  cases l with
  | nil => exact absurd rfl h
  | cons c t => rfl

theorem hardSplitGo_length_le (fuel : Nat) (l : List Char) (h : l.length ≤ fuel) :
    ∀ p ∈ hardSplitGo fuel l, p.length ≤ MAX_REPLY := by
  induction fuel generalizing l with
  | zero =>
    have hl : l = [] := List.eq_nil_of_length_eq_zero (by omega)
    subst hl
    simp [hardSplitGo_nil]
  | succ fuel ih =>
    intro p hp
    cases l with
    | nil => simp [hardSplitGo_nil] at hp
    | cons c t =>
      rw [hardSplitGo_succ fuel (c :: t) (by simp)] at hp
      rcases List.mem_cons.mp hp with h1 | h2
      · subst h1
        simp [List.length_take]
      · apply ih _ _ p h2
        have hM : MAX_REPLY = 1900 := rfl
        simp only [List.length_drop, List.length_cons] at *
        omega

theorem hardSplit_ne_nil (l : List Char) (h : l ≠ []) : hardSplit l ≠ [] := by
  cases l with
  | nil => exact absurd rfl h
  | cons c t =>
    show hardSplitGo (c :: t).length (c :: t) ≠ []
    rw [List.length_cons, hardSplitGo_succ t.length (c :: t) (by simp)]
    simp

theorem chunkLoop_length_le (lines : List (List Char)) :
    ∀ buf : List Char, buf.length ≤ MAX_REPLY →
      ∀ p ∈ chunkLoop buf lines, p.length ≤ MAX_REPLY := by
  induction lines with
  | nil =>
    intro buf hb p hp
    simp only [chunkLoop, flushBuf] at hp
    split at hp
    · simp at hp
    · rcases List.mem_singleton.mp hp with rfl
      exact hb
  | cons line rest ih =>
    intro buf hb p hp
    simp only [chunkLoop] at hp
    by_cases hov : (if buf = [] then line else buf ++ '\n' :: line).length > MAX_REPLY
    · rw [if_pos hov] at hp
      rcases List.mem_append.mp hp with h1 | h2
      · simp only [flushBuf] at h1
        split at h1
        · simp at h1
        · rcases List.mem_singleton.mp h1 with rfl
          exact hb
      · by_cases hl : line.length > MAX_REPLY
        · rw [if_pos hl] at h2
          rcases List.mem_append.mp h2 with h3 | h4
          · exact hardSplitGo_length_le line.length line le_rfl p h3
          · exact ih [] (by simp [MAX_REPLY]) p h4
        · rw [if_neg hl] at h2
          exact ih line (by omega) p h2
    · rw [if_neg hov] at hp
      exact ih _ (by omega) p hp

/-- C3: every chunk produced by the reply chunker has length at most
`MAX` (1900). -/
theorem claim_C3 (text p : List Char) (hp : p ∈ sendLongReplyParts text) :
    p.length ≤ MAX_REPLY := by
  simp only [sendLongReplyParts] at hp
  exact chunkLoop_length_le _ [] (by simp [MAX_REPLY]) p hp

/-- Witness for C3 at a concrete text. -/
theorem claim_C3_witness : ("hi".toList).length ≤ MAX_REPLY :=
  claim_C3 "hi".toList "hi".toList (by decide)

theorem splitNl_ne_nil (l : List Char) : splitNl l ≠ [] := by
  cases l with
  | nil => simp [splitNl]
  | cons c t =>
    simp only [splitNl]
    split_ifs with h
    · simp
    · cases splitNl t <;> simp

theorem splitNl_no_newline (l : List Char) (h : '\n' ∉ l) : splitNl l = [l] := by
  induction l with
  | nil => rfl
  | cons c t ih =>
    have hc : c ≠ '\n' := fun hc => h (hc ▸ List.mem_cons_self c t)
    have ht : splitNl t = [t] := ih fun hm => h (List.mem_cons_of_mem c hm)
    simp [splitNl, hc, ht]

theorem mem_splitNl (l : List Char) (c : Char) (hc : c ∈ l) (hnl : c ≠ '\n') :
    ∃ line ∈ splitNl l, c ∈ line := by
  induction l with
  | nil => simp at hc
  | cons a t ih =>
    by_cases ha : a = '\n'
    · have hct : c ∈ t := by
        rcases List.mem_cons.mp hc with h1 | h2
        · exact absurd (h1.trans ha) hnl
        · exact h2
      obtain ⟨line, hline, hcl⟩ := ih hct
      exact ⟨line, by simp [splitNl, ha, hline], hcl⟩
    · cases hs : splitNl t with
      | nil => exact absurd hs (splitNl_ne_nil t)
      | cons h' r =>
        rcases List.mem_cons.mp hc with h1 | h2
        · exact ⟨a :: h', by simp [splitNl, ha, hs], by simp [h1]⟩
        · obtain ⟨line, hline, hcl⟩ := ih h2
          rw [hs] at hline
          rcases List.mem_cons.mp hline with h3 | h4
          · exact ⟨a :: h', by simp [splitNl, ha, hs], by
              subst h3; exact List.mem_cons_of_mem a hcl⟩
          · exact ⟨line, by simp [splitNl, ha, hs, h4], hcl⟩

theorem flushBuf_of_nonWs (buf : List Char) (hb : ∃ c ∈ buf, isJsWs c = false) :
    flushBuf buf = [buf] := by
  obtain ⟨c, hc, hws⟩ := hb
  have : jsTrim buf ≠ [] := fun h => by
    have := (jsTrim_eq_nil_iff buf).mp h c hc
    rw [this] at hws
    cases hws
  simp [flushBuf, this]

theorem chunkLoop_ne_nil_of_buf (lines : List (List Char)) :
    ∀ buf : List Char, (∃ c ∈ buf, isJsWs c = false) → chunkLoop buf lines ≠ [] := by
  induction lines with
  | nil =>
    intro buf hb
    simp [chunkLoop, flushBuf_of_nonWs buf hb]
  | cons line rest ih =>
    intro buf hb
    simp only [chunkLoop]
    by_cases hov : (if buf = [] then line else buf ++ '\n' :: line).length > MAX_REPLY
    · rw [if_pos hov, flushBuf_of_nonWs buf hb]
      simp
    · rw [if_neg hov]
      apply ih
      obtain ⟨c, hc, hws⟩ := hb
      have hbne : buf ≠ [] := fun h => by subst h; simp at hc
      exact ⟨c, by simp [hbne, List.mem_append, hc], hws⟩

theorem chunkLoop_ne_nil_of_line (lines : List (List Char)) :
    ∀ buf : List Char, (∃ l ∈ lines, ∃ c ∈ l, isJsWs c = false) →
      chunkLoop buf lines ≠ [] := by
  induction lines with
  | nil =>
    intro buf hl
    simp at hl
  | cons line rest ih =>
    intro buf hl
    simp only [chunkLoop]
    by_cases hov : (if buf = [] then line else buf ++ '\n' :: line).length > MAX_REPLY
    · rw [if_pos hov]
      by_cases hfl : jsTrim buf = []
      · simp only [flushBuf, if_pos hfl, List.nil_append]
        by_cases hlen : line.length > MAX_REPLY
        · rw [if_pos hlen]
          have : hardSplit line ≠ [] := by
            apply hardSplit_ne_nil
            intro h
            rw [h] at hlen
            simp [MAX_REPLY] at hlen
          intro hc
          rcases List.append_eq_nil.mp hc with ⟨h1, _⟩
          exact this h1
        · rw [if_neg hlen]
          obtain ⟨l0, hl0, hcl0⟩ := hl
          rcases List.mem_cons.mp hl0 with h1 | h2
          · exact chunkLoop_ne_nil_of_buf rest line (h1 ▸ hcl0)
          · exact ih line ⟨l0, h2, hcl0⟩
      · simp only [flushBuf, if_neg hfl]
        simp
    · rw [if_neg hov]
      obtain ⟨l0, hl0, hcl0⟩ := hl
      rcases List.mem_cons.mp hl0 with h1 | h2
      · subst h1
        apply chunkLoop_ne_nil_of_buf
        obtain ⟨c, hc, hws⟩ := hcl0
        by_cases hbe : buf = []
        · exact ⟨c, by simp [hbe, hc], hws⟩
        · exact ⟨c, by simp [hbe, List.mem_append, hc], hws⟩
      · exact ih _ ⟨l0, h2, hcl0⟩

/-- C4 counterexample: the chunker can produce ZERO chunks — a non-empty,
whitespace-only input (a single space) survives the `!text` placeholder check
but its only buffer is skipped by `pushBuf`, leaving `parts` empty. -/
theorem claim_C4_counterexample : sendLongReplyParts [' '] = [] := by decide

/-- C4 amended: empty (or `null`) input yields exactly the one placeholder
chunk `'(no content)'`, and any input containing a non-whitespace character
yields at least one chunk; but a non-empty whitespace-only input yields no
chunk at all. -/
theorem claim_C4_amended (text : List Char) :
    (text = [] → sendLongReplyParts text = [noContent])
    ∧ ((∃ c ∈ text, isJsWs c = false) → sendLongReplyParts text ≠ []) := by
  constructor
  · intro h
    subst h
    decide
  · intro h
    obtain ⟨c, hc, hws⟩ := h
    have hne : text ≠ [] := fun h0 => by subst h0; simp at hc
    have hnl : c ≠ '\n' := fun h0 => by subst h0; cases hws
    simp only [sendLongReplyParts, if_neg hne]
    obtain ⟨line, hline, hcl⟩ := mem_splitNl text c hc hnl
    exact chunkLoop_ne_nil_of_line (splitNl text) [] ⟨line, hline, c, hcl, hws⟩

/-- Witness for C4 (amended) at concrete inputs. -/
theorem claim_C4_amended_witness :
    sendLongReplyParts [] = [noContent] ∧ sendLongReplyParts "a".toList ≠ [] :=
  ⟨(claim_C4_amended []).1 rfl,
   (claim_C4_amended "a".toList).2 ⟨'a', by decide, by decide⟩⟩

theorem jsTrim_nil : jsTrim [] = [] := rfl

theorem flushBuf_nil : flushBuf [] = [] := rfl

/-- C5: a single newline-free line of 5000 characters is hard-split into
exactly three chunks of lengths 1900, 1900 and 1200 (in order) whose
concatenation is the original line. -/
theorem claim_C5 (l : List Char) (h5 : l.length = 5000) (hn : '\n' ∉ l) :
    sendLongReplyParts l
      = [l.take 1900, (l.drop 1900).take 1900, (l.drop 1900).drop 1900]
    ∧ (l.take 1900).length = 1900
    ∧ ((l.drop 1900).take 1900).length = 1900
    ∧ ((l.drop 1900).drop 1900).length = 1200
    ∧ l.take 1900 ++ ((l.drop 1900).take 1900 ++ (l.drop 1900).drop 1900) = l := by
  have hM : MAX_REPLY = 1900 := rfl
  have hne : l ≠ [] := fun h => by rw [h] at h5; simp at h5
  have hgt : l.length > MAX_REPLY := by rw [h5]; decide
  have hd1 : (l.drop 1900).length = 3100 := by
    simp only [List.length_drop]
    omega
  have hd2 : ((l.drop 1900).drop 1900).length = 1200 := by
    simp only [List.length_drop]
    omega
  have hne1 : l.drop 1900 ≠ [] := fun h => by rw [h] at hd1; simp at hd1
  have hne2 : (l.drop 1900).drop 1900 ≠ [] := fun h => by rw [h] at hd2; simp at hd2
  refine ⟨?_, by simp [List.length_take, h5], by
    simp only [List.length_take, hd1]
    norm_num, hd2, ?_⟩
  · have hc : chunkLoop [] [l] = hardSplit l := by
      simp [chunkLoop, hgt, flushBuf_nil]
    have hhs : hardSplit l
        = [l.take 1900, (l.drop 1900).take 1900, (l.drop 1900).drop 1900] := by
      show hardSplitGo l.length l = _
      rw [h5, show (5000 : Nat) = 4999 + 1 by norm_num,
        hardSplitGo_succ 4999 l hne, hM,
        show (4999 : Nat) = 4998 + 1 by norm_num,
        hardSplitGo_succ 4998 (l.drop 1900) hne1, hM,
        show (4998 : Nat) = 4997 + 1 by norm_num,
        hardSplitGo_succ 4997 ((l.drop 1900).drop 1900) hne2, hM,
        List.take_of_length_le (show ((l.drop 1900).drop 1900).length ≤ 1900 by
          rw [hd2]; norm_num),
        List.drop_eq_nil_of_le (show ((l.drop 1900).drop 1900).length ≤ 1900 by
          rw [hd2]; norm_num),
        hardSplitGo_nil]
    simp only [sendLongReplyParts, if_neg hne, splitNl_no_newline l hn]
    rw [hc, hhs]
  · rw [List.take_append_drop, List.take_append_drop]

/-- Witness for C5 at the concrete line of 5000 `'a'`s. -/
theorem claim_C5_witness :
    sendLongReplyParts (List.replicate 5000 'a')
      = [List.replicate 1900 'a', List.replicate 1900 'a',
         List.replicate 1200 'a'] := by
  have hlen : (List.replicate 5000 'a').length = 5000 := by
    rw [List.length_replicate]
  have hmem : '\n' ∉ List.replicate 5000 'a' := by
    rw [List.mem_replicate]
    decide
  have h := (claim_C5 (List.replicate 5000 'a') hlen hmem).1
  rw [h, List.take_replicate, List.drop_replicate, List.take_replicate,
    List.drop_replicate]
  norm_num

theorem joinNl_cons (x : List Char) (r : List (List Char)) (h : r ≠ []) :
    joinNl (x :: r) = x ++ '\n' :: joinNl r := by
  cases r with
  | nil => exact absurd rfl h
  | cons y s => rfl

theorem joinNl_splitNl (l : List Char) : joinNl (splitNl l) = l := by
  induction l with
  | nil => rfl
  | cons c t ih =>
    by_cases hc : c = '\n'
    · subst hc
      have hsp : splitNl ('\n' :: t) = [] :: splitNl t := by
        simp [splitNl]
      rw [hsp, joinNl_cons [] (splitNl t) (splitNl_ne_nil t), ih]
      rfl
    · simp only [splitNl, if_neg hc]
      cases hs : splitNl t with
      | nil => exact absurd hs (splitNl_ne_nil t)
      | cons h' r =>
        rw [hs] at ih
        cases r with
        | nil =>
          show c :: h' = c :: t
          have : h' = t := ih
          rw [this]
        | cons y s =>
          rw [joinNl_cons (c :: h') (y :: s) (by simp)]
          rw [joinNl_cons h' (y :: s) (by simp)] at ih
          rw [← ih]
          rfl

theorem chunkLoop_join (lines : List (List Char)) :
    ∀ buf : List Char, (∃ c ∈ buf, isJsWs c = false) →
      (∀ l ∈ lines, l.length ≤ MAX_REPLY ∧ ∃ c ∈ l, isJsWs c = false) →
      joinNl (chunkLoop buf lines) = joinNl (buf :: lines) := by
  induction lines with
  | nil =>
    intro buf hb _
    simp [chunkLoop, flushBuf_of_nonWs buf hb]
  | cons line rest ih =>
    intro buf hb hl
    obtain ⟨hlen, hnws⟩ := hl line (List.mem_cons_self line rest)
    have hrest : ∀ l ∈ rest, l.length ≤ MAX_REPLY ∧ ∃ c ∈ l, isJsWs c = false :=
      fun l h0 => hl l (List.mem_cons_of_mem line h0)
    obtain ⟨b, hbm, hbw⟩ := hb
    have hbne : buf ≠ [] := fun h0 => by subst h0; simp at hbm
    have hcand : (if buf = [] then line else buf ++ '\n' :: line)
        = buf ++ '\n' :: line := if_neg hbne
    simp only [chunkLoop, hcand]
    by_cases hov : (buf ++ '\n' :: line).length > MAX_REPLY
    · rw [if_pos hov, flushBuf_of_nonWs buf ⟨b, hbm, hbw⟩,
        if_neg (by omega : ¬line.length > MAX_REPLY)]
      have hR : chunkLoop line rest ≠ [] := chunkLoop_ne_nil_of_buf rest line hnws
      show joinNl (buf :: chunkLoop line rest) = _
      rw [joinNl_cons buf (chunkLoop line rest) hR, ih line hnws hrest,
        joinNl_cons buf (line :: rest) (by simp)]
    · rw [if_neg hov]
      rw [ih (buf ++ '\n' :: line)
        ⟨b, List.mem_append.mpr (Or.inl hbm), hbw⟩ hrest]
      cases rest with
      | nil => rfl
      | cons y s =>
        rw [joinNl_cons (buf ++ '\n' :: line) (y :: s) (by simp),
          joinNl_cons buf (line :: y :: s) (by simp),
          joinNl_cons line (y :: s) (by simp)]
        simp [List.append_assoc]

theorem cand_nil_buf (line : List Char) :
    (if ([] : List Char) = [] then line else [] ++ '\n' :: line) = line :=
  if_pos rfl

theorem chunkLoop_cons_small (buf line : List Char) (rest : List (List Char))
    (h : (if buf = [] then line else buf ++ '\n' :: line).length ≤ MAX_REPLY) :
    chunkLoop buf (line :: rest)
      = chunkLoop (if buf = [] then line else buf ++ '\n' :: line) rest := by
  simp only [chunkLoop]
  rw [if_neg (by omega)]

theorem chunkLoop_cons_flush (buf line : List Char) (rest : List (List Char))
    (h1 : (if buf = [] then line else buf ++ '\n' :: line).length > MAX_REPLY)
    (h2 : line.length ≤ MAX_REPLY) :
    chunkLoop buf (line :: rest) = flushBuf buf ++ chunkLoop line rest := by
  simp only [chunkLoop]
  rw [if_pos h1, if_neg (by omega)]

/-- A whitespace-only line followed by a line that cannot share its buffer is
dropped from the output: the chunker's `pushBuf` skips the whitespace-only
buffer when the next line forces a flush. -/
theorem chunk_drops_ws_line (w : List Char) (hlen : w.length = 1900)
    (hnl : '\n' ∉ w) (hnw : ∃ c ∈ w, isJsWs c = false) :
    [' '] ∈ splitNl (' ' :: '\n' :: w)
    ∧ [' '] ∉ splitNl (joinNl (sendLongReplyParts (' ' :: '\n' :: w))) := by
  have h1 : splitNl w = [w] := splitNl_no_newline _ hnl
  have h3 : splitNl (' ' :: '\n' :: w) = [[' '], w] := by
    simp [splitNl, h1]
  constructor
  · rw [h3]
    simp
  · have hparts : sendLongReplyParts (' ' :: '\n' :: w) = [w] := by
      simp only [sendLongReplyParts]
      rw [if_neg (by simp), h3,
        chunkLoop_cons_small [] [' '] [w] (by rw [cand_nil_buf]; decide),
        cand_nil_buf,
        chunkLoop_cons_flush [' '] w []
          (by
            rw [if_neg (by decide)]
            simp only [List.length_append, List.length_cons, hlen]
            decide)
          (by rw [hlen]; decide),
        show flushBuf [' '] = [] by decide,
        show chunkLoop w [] = flushBuf w from rfl,
        flushBuf_of_nonWs w hnw]
      simp
    rw [hparts, show joinNl [w] = w from rfl, h1]
    simp only [List.mem_singleton]
    intro hcontra
    have hlen1 := congrArg List.length hcontra
    rw [hlen] at hlen1
    simp at hlen1

/-- C8 counterexample: joining the chunks with `'\n'` does NOT preserve line
structure — here the whitespace-only line `' '` of the input appears in no
form among the joined output's lines. -/
theorem claim_C8_counterexample :
    [' '] ∈ splitNl (' ' :: '\n' :: List.replicate 1900 'x')
    ∧ [' '] ∉
      splitNl (joinNl (sendLongReplyParts (' ' :: '\n' :: List.replicate 1900 'x'))) :=
  chunk_drops_ws_line (List.replicate 1900 'x')
    (by rw [List.length_replicate])
    (by rw [List.mem_replicate]; decide)
    ⟨'x', List.mem_replicate.mpr ⟨by norm_num, rfl⟩, by decide⟩

/-- C8 amended: when every line of the input is at most `MAX` long and none
is whitespace-only, joining the produced chunks with `'\n'` reconstructs the
input exactly; in general a whitespace-only line can be dropped and an
oversized line is hard-split with `'\n'` inserted at the cut points. -/
theorem claim_C8_amended (text : List Char)
    (h : ∀ line ∈ splitNl text,
      line.length ≤ MAX_REPLY ∧ ∃ c ∈ line, isJsWs c = false) :
    joinNl (sendLongReplyParts text) = text := by
  have hne : text ≠ [] := by
    intro h0
    subst h0
    obtain ⟨-, c, hc, -⟩ := h [] (by simp [splitNl])
    simp at hc
  simp only [sendLongReplyParts, if_neg hne]
  cases hs : splitNl text with
  | nil => exact absurd hs (splitNl_ne_nil text)
  | cons line rest =>
    obtain ⟨hlen, hnws⟩ := h line (by rw [hs]; exact List.mem_cons_self line rest)
    have hngt : ¬line.length > MAX_REPLY := by omega
    have e : chunkLoop [] (line :: rest) = chunkLoop line rest := by
      simp [chunkLoop, hngt]
    rw [e, chunkLoop_join rest line hnws
      (fun l hl => h l (by rw [hs]; exact List.mem_cons_of_mem line hl)), ← hs,
      joinNl_splitNl]

/-- Witness for C8 (amended) at a concrete two-line text. -/
theorem claim_C8_amended_witness :
    joinNl (sendLongReplyParts "ab\ncd".toList) = "ab\ncd".toList :=
  claim_C8_amended "ab\ncd".toList (by decide)

/-! ## Claim C7: completion-response extraction -/

theorem jsTrim_stripThinkBlocks (x : List Char) :
    jsTrim (stripThinkBlocks x) = stripThinkBlocks x := by
  by_cases h : x = []
  · subst h
    rfl
  · simp only [stripThinkBlocks, if_neg h]
    exact jsTrim_idem _

/-- C7: the returned assistant text is the sanitized primary content (the
message content, falling back to the legacy `text` field only when content is
nullish) whenever that sanitized content is non-empty, and the sanitized
`reasoning_content` otherwise; the result is its own trim (and is a total
function — never null, possibly empty). -/
theorem claim_C7 (content legacyText reasoning : Option (List Char)) :
    (stripThinkBlocks (content.getD (legacyText.getD [])) ≠ [] →
      openAiExtractContent content legacyText reasoning
        = stripThinkBlocks (content.getD (legacyText.getD [])))
    ∧ (stripThinkBlocks (content.getD (legacyText.getD [])) = [] →
      openAiExtractContent content legacyText reasoning
        = stripThinkBlocks (reasoning.getD []))
    ∧ jsTrim (openAiExtractContent content legacyText reasoning)
        = openAiExtractContent content legacyText reasoning := by
  refine ⟨fun h => ?_, fun h => ?_, ?_⟩
  · simp only [openAiExtractContent, if_neg h]
    exact jsTrim_stripThinkBlocks _
  · simp only [openAiExtractContent, if_pos h]
    by_cases hr : stripThinkBlocks (reasoning.getD []) = []
    · rw [if_pos hr, hr]
      rfl
    · rw [if_neg hr]
      exact jsTrim_stripThinkBlocks _
  · simp only [openAiExtractContent]
    exact jsTrim_idem _

/-- Witness for C7: primary content wins when its sanitized form is
non-empty; the sanitized `reasoning_content` is used when sanitizing the
primary content leaves nothing. -/
theorem claim_C7_witness :
    openAiExtractContent (some "<think>x</think>Hi there".toList) none
      (some "reasoned".toList) = "Hi there".toList
    ∧ openAiExtractContent (some "<think>x</think>".toList) none
      (some "reasoned".toList) = "reasoned".toList := by
  constructor
  · rw [(claim_C7 (some "<think>x</think>Hi there".toList) none
      (some "reasoned".toList)).1 (by decide)]
    decide
  · rw [(claim_C7 (some "<think>x</think>".toList) none
      (some "reasoned".toList)).2.1 (by decide)]
    decide

/-! ## Claim C2: sanitizer idempotence -/

theorem tryThinkBlock_ne_lt (c : Char) (t : List Char) (h : c ≠ '<') :
    tryThinkBlock (c :: t) = none := by
  simp [tryThinkBlock, h]

theorem tryThinkStray_ne_lt (c : Char) (t : List Char) (h : c ≠ '<') :
    tryThinkStray (c :: t) = none := by
  simp [tryThinkStray, h]

theorem tryReasoningBlock_ne_lt (c : Char) (t : List Char) (h : c ≠ '<') :
    tryReasoningBlock (c :: t) = none := by
  simp [tryReasoningBlock, tryReasoningOpen, h]

theorem tryReasoningStray_ne_lt (c : Char) (t : List Char) (h : c ≠ '<') :
    tryReasoningStray (c :: t) = none := by
  simp [tryReasoningStray, h]

theorem replaceAllGo_id (m : List Char → Option (List Char))
    (hm : ∀ c t, c ≠ '<' → m (c :: t) = none) :
    ∀ (fuel : Nat) (l : List Char), '<' ∉ l → replaceAllGo m fuel l = l := by
  intro fuel
  induction fuel with
  | zero =>
    intro l hl
    cases l <;> rfl
  | succ f ih =>
    intro l hl
    cases l with
    | nil => rfl
    | cons c t =>
      have hc : c ≠ '<' := fun h => hl (h ▸ List.mem_cons_self c t)
      simp only [replaceAllGo, hm c t hc]
      rw [ih t fun h => hl (List.mem_cons_of_mem c h)]

theorem replaceAll_id (m : List Char → Option (List Char))
    (hm : ∀ c t, c ≠ '<' → m (c :: t) = none)
    (l : List Char) (hl : '<' ∉ l) : replaceAll m l = l :=
  replaceAllGo_id m hm l.length l hl

theorem collapseAux_nl (n : Nat) (t : List Char) :
    collapseAux n ('\n' :: t)
      = if 2 ≤ n then collapseAux n t else '\n' :: collapseAux (n + 1) t := by
  simp [collapseAux]

theorem collapseAux_other (n : Nat) (c : Char) (t : List Char) (hc : c ≠ '\n') :
    collapseAux n (c :: t) = c :: collapseAux 0 t := by
  simp [collapseAux, hc]

theorem cleanFrom_nl (n : Nat) (t : List Char) :
    cleanFrom n ('\n' :: t) = (decide (n < 2) && cleanFrom (n + 1) t) := by
  simp [cleanFrom]

theorem cleanFrom_other (n : Nat) (c : Char) (t : List Char) (hc : c ≠ '\n') :
    cleanFrom n (c :: t) = cleanFrom 0 t := by
  simp [cleanFrom, hc]

theorem mem_collapseAux (a : Char) :
    ∀ (l : List Char) (n : Nat), a ∈ collapseAux n l → a ∈ l := by
  intro l
  induction l with
  | nil =>
    intro n h
    exact h
  | cons c t ih =>
    intro n h
    by_cases hc : c = '\n'
    · subst hc
      rw [collapseAux_nl] at h
      by_cases h2 : 2 ≤ n
      · rw [if_pos h2] at h
        exact List.mem_cons_of_mem _ (ih n h)
      · rw [if_neg h2] at h
        rcases List.mem_cons.mp h with h1 | h2'
        · simp [h1]
        · exact List.mem_cons_of_mem _ (ih _ h2')
    · rw [collapseAux_other n c t hc] at h
      rcases List.mem_cons.mp h with h1 | h2
      · simp [h1]
      · exact List.mem_cons_of_mem _ (ih _ h2)

theorem cleanFrom_collapseAux (l : List Char) :
    ∀ n : Nat, cleanFrom n (collapseAux n l) = true := by
  induction l with
  | nil =>
    intro n
    rfl
  | cons c t ih =>
    intro n
    by_cases hc : c = '\n'
    · subst hc
      rw [collapseAux_nl]
      by_cases h2 : 2 ≤ n
      · rw [if_pos h2]
        exact ih n
      · rw [if_neg h2, cleanFrom_nl]
        simp only [Bool.and_eq_true, decide_eq_true_eq]
        exact ⟨by omega, ih (n + 1)⟩
    · rw [collapseAux_other n c t hc, cleanFrom_other _ c _ hc]
      exact ih 0

theorem collapseAux_of_clean (l : List Char) :
    ∀ n : Nat, cleanFrom n l = true → collapseAux n l = l := by
  induction l with
  | nil =>
    intro n _
    rfl
  | cons c t ih =>
    intro n h
    by_cases hc : c = '\n'
    · subst hc
      rw [cleanFrom_nl] at h
      simp only [Bool.and_eq_true, decide_eq_true_eq] at h
      rw [collapseAux_nl, if_neg (by omega : ¬2 ≤ n), ih (n + 1) h.2]
    · rw [cleanFrom_other n c t hc] at h
      rw [collapseAux_other n c t hc, ih 0 h]

theorem cleanFrom_mono (l : List Char) :
    ∀ n m : Nat, n ≤ m → cleanFrom m l = true → cleanFrom n l = true := by
  induction l with
  | nil =>
    intro n m _ _
    rfl
  | cons c t ih =>
    intro n m hnm h
    by_cases hc : c = '\n'
    · subst hc
      rw [cleanFrom_nl] at h ⊢
      simp only [Bool.and_eq_true, decide_eq_true_eq] at h ⊢
      exact ⟨by omega, ih (n + 1) (m + 1) (by omega) h.2⟩
    · rw [cleanFrom_other m c t hc] at h
      rw [cleanFrom_other n c t hc]
      exact h

theorem cleanFrom_append_right (s : List Char) :
    ∀ (t : List Char) (n : Nat), cleanFrom n (s ++ t) = true →
      ∃ m, cleanFrom m t = true := by
  induction s with
  | nil =>
    intro t n h
    exact ⟨n, h⟩
  | cons c s' ih =>
    intro t n h
    rw [List.cons_append] at h
    by_cases hc : c = '\n'
    · subst hc
      rw [cleanFrom_nl] at h
      simp only [Bool.and_eq_true] at h
      exact ih t (n + 1) h.2
    · rw [cleanFrom_other n c _ hc] at h
      exact ih t 0 h

theorem cleanFrom_append_left (s : List Char) :
    ∀ (t : List Char) (n : Nat), cleanFrom n (s ++ t) = true →
      cleanFrom n s = true := by
  induction s with
  | nil =>
    intro t n _
    rfl
  | cons c s' ih =>
    intro t n h
    rw [List.cons_append] at h
    by_cases hc : c = '\n'
    · subst hc
      rw [cleanFrom_nl] at h ⊢
      simp only [Bool.and_eq_true] at h ⊢
      exact ⟨h.1, ih t (n + 1) h.2⟩
    · rw [cleanFrom_other n c _ hc] at h
      rw [cleanFrom_other n c s' hc]
      exact ih t 0 h

theorem cleanFrom_jsTrim (z : List Char) (h : cleanFrom 0 z = true) :
    cleanFrom 0 (jsTrim z) = true := by
  have hz : z.takeWhile (fun c => isJsWs c) ++ trimLeft z = z := by
    simp only [trimLeft]
    exact List.takeWhile_append_dropWhile _ _
  have h1 : cleanFrom 0 (trimLeft z) = true := by
    obtain ⟨m, hm⟩ := cleanFrom_append_right (z.takeWhile fun c => isJsWs c)
      (trimLeft z) 0 (by rw [hz]; exact h)
    exact cleanFrom_mono _ 0 m (Nat.zero_le m) hm
  obtain ⟨t, ht⟩ := trimRight_decomp (trimLeft z)
  apply cleanFrom_append_left _ t 0
  show cleanFrom 0 (trimRight (trimLeft z) ++ t) = true
  rw [← ht]
  exact h1

theorem stripThinkBlocks_eq_of_lt_free (x : List Char) (hx : x ≠ [])
    (hl : '<' ∉ x) : stripThinkBlocks x = jsTrim (collapseNewlines x) := by
  simp only [stripThinkBlocks, if_neg hx]
  rw [replaceAll_id tryThinkBlock tryThinkBlock_ne_lt x hl,
    replaceAll_id tryThinkStray tryThinkStray_ne_lt x hl,
    replaceAll_id tryReasoningBlock tryReasoningBlock_ne_lt x hl,
    replaceAll_id tryReasoningStray tryReasoningStray_ne_lt x hl]

theorem lt_not_mem_strip (x : List Char) (hl : '<' ∉ x) :
    '<' ∉ stripThinkBlocks x := by
  by_cases hx : x = []
  · subst hx
    simp [stripThinkBlocks]
  · rw [stripThinkBlocks_eq_of_lt_free x hx hl]
    intro hmem
    exact hl (mem_collapseAux '<' x 0 (mem_jsTrim '<' _ hmem))

/-- C2 counterexample: the sanitizer is NOT idempotent.  Removing the inner
stray tag of `<t<think>hink>` manufactures a fresh `<think>` tag, which only
a second pass removes: one pass yields `<think>`, two passes yield the empty
string. -/
theorem claim_C2_counterexample :
    stripThinkBlocks (stripThinkBlocks "<t<think>hink>".toList)
      ≠ stripThinkBlocks "<t<think>hink>".toList := by decide

/-- C2 amended: the sanitizer is idempotent on every string that contains no
`'<'` character (so no tag fragment at all); in general idempotence fails,
because deleting a stray tag can splice a new tag together. -/
theorem claim_C2_amended (x : List Char) (hl : '<' ∉ x) :
    stripThinkBlocks (stripThinkBlocks x) = stripThinkBlocks x := by
  by_cases hx : x = []
  · subst hx
    rfl
  · have hy := stripThinkBlocks_eq_of_lt_free x hx hl
    by_cases hyz : stripThinkBlocks x = []
    · rw [hyz]
      rfl
    · rw [stripThinkBlocks_eq_of_lt_free _ hyz (lt_not_mem_strip x hl)]
      have hclean : cleanFrom 0 (stripThinkBlocks x) = true := by
        rw [hy]
        exact cleanFrom_jsTrim _ (cleanFrom_collapseAux x 0)
      rw [show collapseNewlines (stripThinkBlocks x) = stripThinkBlocks x from
        collapseAux_of_clean _ 0 hclean]
      exact jsTrim_stripThinkBlocks x

/-- Witness for C2 (amended) at a concrete tag-free string with a long
newline run. -/
theorem claim_C2_amended_witness :
    stripThinkBlocks (stripThinkBlocks "hey\n\n\n\nthere".toList)
      = stripThinkBlocks "hey\n\n\n\nthere".toList :=
  claim_C2_amended "hey\n\n\n\nthere".toList (by decide)
